import Mathlib

/-!
Verification of the stream-eventify core: a diff engine that turns a
sequence of collection snapshots into Add/Remove membership actions, and
a pull-based adapter that drives it from an upstream stream.

The Rust `HashSet<T>` state is embedded as a deduplicated `List T`
(enumeration order abstract), the `VecDeque<Action<T>>` as a `List`
with FIFO pop at the head, and the async `poll_next` loop as a
fuel-indexed step function over an abstract upstream oracle
`Nat → UpResp T` giving the result of each successive upstream poll.
-/

namespace StreamEventify

/-- `Action<T>`: `Add(T)` or `Remove(T)`. -/
inductive Action (T : Type) where
  | Add (x : T)
  | Remove (x : T)
  deriving DecidableEq, Repr

/-- `Inner<T>`: the diff engine, with `state: HashSet<T>` modelled as a
list (membership is what matters) and `action_queue: VecDeque<Action<T>>`
as a list popped at the front. -/
structure Inner (T : Type) where
  state : List T
  action_queue : List (Action T)
  deriving DecidableEq, Repr

variable {T : Type} [DecidableEq T]

/-- `Inner::new()`: empty state, empty queue. -/
def Inner.new : Inner T := ⟨[], []⟩

/-- `Inner::next_from_queue`: `self.action_queue.pop_front()`, returning
the popped action (if any) together with the mutated engine. -/
def Inner.next_from_queue (inn : Inner T) : Option (Action T) × Inner T :=
  match inn.action_queue with
  | [] => (none, inn)
  | a :: rest => (some a, { inn with action_queue := rest })

/-- `Inner::update`: dedup the incoming snapshot into a set `ns`,
queue one `Remove` per element of `state \ ns` followed by one `Add`
per element of `ns \ state` (the Rust `remove_iter.chain(add_iter)`),
overwrite the queue with that batch, and replace `state` with `ns`. -/
def Inner.update (inn : Inner T) (snapshot : List T) : Inner T :=
  let ns := snapshot.dedup
  let removes := (inn.state.filter fun x => decide (x ∉ ns)).map Action.Remove
  let adds := (ns.filter fun x => decide (x ∉ inn.state)).map Action.Add
  { state := ns, action_queue := removes ++ adds }

/-- One upstream poll result: `Poll::Pending`, `Poll::Ready(None)`
(finished) or `Poll::Ready(Some(snapshot))`. -/
inductive UpResp (T : Type) where
  | pend
  | finished
  | item (snapshot : List T)
  deriving DecidableEq

/-- Result of one `poll_next` call on the adapter. -/
inductive PollStep (T : Type) where
  | pend
  | finished
  | action (a : Action T)
  deriving DecidableEq

/-- `StreamDiff`: the adapter. The upstream stream is modelled by an
oracle `Nat → UpResp T`; `idx` counts how many times the upstream has
been polled so far. -/
structure StreamDiff (T : Type) where
  idx : Nat
  inner : Inner T
  deriving DecidableEq

/-- `StreamDiff::new`: fresh engine, upstream not yet polled. -/
def StreamDiff.new : StreamDiff T := ⟨0, Inner.new⟩

/-- `<StreamDiff as Stream>::poll_next`: serve the queue if non-empty;
otherwise poll upstream once and either stop (`finished`), suspend
(`pend`), or feed the snapshot to `update` and loop. The Rust `loop` is
given explicit fuel; `none` means the fuel ran out mid-loop. -/
def poll_next (up : Nat → UpResp T) :
    Nat → StreamDiff T → Option (PollStep T × StreamDiff T)
  | 0, _ => none
  | fuel + 1, s =>
    match s.inner.next_from_queue with
    | (some a, inner2) => some (.action a, { s with inner := inner2 })
    | (none, inner2) =>
      match up s.idx with
      | .finished => some (.finished, { idx := s.idx + 1, inner := inner2 })
      | .pend => some (.pend, { idx := s.idx + 1, inner := inner2 })
      | .item snap => poll_next up fuel { idx := s.idx + 1, inner := inner2.update snap }

/-- The consumer-side replay of one action on a set (modelled as a
list): `Add x` inserts `x` if absent, `Remove x` deletes it. -/
def applyAction (r : List T) : Action T → List T
  | .Add x => if x ∈ r then r else x :: r
  | .Remove x => r.filter fun y => decide (y ≠ x)

/-- Replay a list of actions, in delivery order, onto a set. -/
def replay (r : List T) (acts : List (Action T)) : List T :=
  acts.foldl applyAction r

/-- Replay a list of diff batches, each in delivery order. -/
def replayBatches (r : List T) (bs : List (List (Action T))) : List T :=
  bs.foldl replay r

/-- The sequence of diff batches produced by feeding the snapshots to
`update` one at a time, each batch fully drained before the next
`update` (invariant I1: `update` is only called on an empty queue). -/
def runBatches : Inner T → List (List T) → List (List (Action T))
  | _, [] => []
  | inn, s :: rest => (inn.update s).action_queue :: runBatches (inn.update s) rest

/-- Characterisation of the batch produced by `update`: exactly one
`Remove x` for each `x` in the old state but not the snapshot, and one
`Add x` for each `x` in the snapshot but not the old state. -/
theorem mem_update_queue (inn : Inner T) (s : List T) (act : Action T) :
    act ∈ (inn.update s).action_queue ↔
      (∃ x, act = Action.Remove x ∧ x ∈ inn.state ∧ x ∉ s) ∨
      (∃ x, act = Action.Add x ∧ x ∈ s ∧ x ∉ inn.state) := by
  simp only [Inner.update, List.mem_append, List.mem_map, List.mem_filter,
    decide_eq_true_iff, List.mem_dedup]
  constructor
  · rintro (⟨x, ⟨hx, hnx⟩, rfl⟩ | ⟨x, ⟨hx, hnx⟩, rfl⟩)
    · exact Or.inl ⟨x, rfl, hx, hnx⟩
    · exact Or.inr ⟨x, rfl, hx, hnx⟩
  · rintro (⟨x, rfl, hx, hnx⟩ | ⟨x, rfl, hx, hnx⟩)
    · exact Or.inl ⟨x, ⟨hx, hnx⟩, rfl⟩
    · exact Or.inr ⟨x, ⟨hx, hnx⟩, rfl⟩

/-- C2: no diff batch contains both `Add(x)` and `Remove(x)` for the
same element `x`: each element is classified by a single membership
test against the previous/next set pair. -/
theorem c2_no_add_and_remove (inn : Inner T) (s : List T) (x : T) :
    ¬(Action.Add x ∈ (inn.update s).action_queue ∧
      Action.Remove x ∈ (inn.update s).action_queue) := by
  rintro ⟨hadd, hrem⟩
  rw [mem_update_queue] at hadd hrem
  rcases hadd with ⟨y, hy, _, _⟩ | ⟨y, hy, hys, hyn⟩
  · exact Action.noConfusion hy
  · rcases hrem with ⟨z, hz, hzs, hzn⟩ | ⟨z, hz, _, _⟩
    · cases hy; cases hz; exact hzn hys
    · exact Action.noConfusion hz

/-- C8: from the initial empty state, the snapshot `[5,5,5]` collapses
to set semantics and produces exactly the single action `Add 5`. -/
theorem c8_dup_snapshot_single_add :
    ((Inner.new : Inner Nat).update [5, 5, 5]).action_queue = [Action.Add 5] := by
  decide

/-- C5: if the snapshot deduplicates to exactly the current state as a
set, `update` enqueues zero actions. -/
theorem c5_no_change_no_actions (inn : Inner T) (s : List T)
    (h : ∀ x, x ∈ s.dedup ↔ x ∈ inn.state) :
    (inn.update s).action_queue = [] := by
  simp only [Inner.update, List.append_eq_nil, List.map_eq_nil_iff,
    List.filter_eq_nil_iff, decide_eq_true_iff]
  constructor
  · intro x hx hnot
    exact hnot ((h x).2 hx)
  · intro x hx hnot
    exact hnot ((h x).1 hx)

/-- C5 witness: state `[1, 2]`, snapshot `[2, 1, 2]` (same set). -/
theorem c5_witness :
    (∀ x : Fin 3, x ∈ ([2, 1, 2] : List (Fin 3)).dedup ↔
        x ∈ (Inner.mk ([1, 2] : List (Fin 3)) []).state) ∧
      ((Inner.mk ([1, 2] : List (Fin 3)) []).update [2, 1, 2]).action_queue = [] :=
  ⟨by decide, c5_no_change_no_actions _ _ (by decide)⟩

/-- C10: `update` overwrites the queue rather than appending — the
resulting queue is independent of the queue's prior contents, and it
holds exactly the actions of the newly computed diff. -/
theorem c10_update_overwrites_queue (st : List T) (q : List (Action T)) (s : List T) :
    ((Inner.mk st q).update s).action_queue = ((Inner.mk st []).update s).action_queue ∧
      (∀ act, act ∈ ((Inner.mk st q).update s).action_queue ↔
        (∃ x, act = Action.Remove x ∧ x ∈ st ∧ x ∉ s) ∨
        (∃ x, act = Action.Add x ∧ x ∈ s ∧ x ∉ st)) :=
  ⟨rfl, fun act => mem_update_queue (Inner.mk st q) s act⟩

/-- C9: removes-first ordering — every diff batch splits as a block of
`Remove` actions followed by a block of `Add` actions, so via the FIFO
queue all removes of a batch are delivered before any of its adds. -/
theorem c9_removes_before_adds (inn : Inner T) (s : List T) :
    ∃ r a, (inn.update s).action_queue = r ++ a ∧
      (∀ act ∈ r, ∃ x, act = Action.Remove x) ∧
      (∀ act ∈ a, ∃ x, act = Action.Add x) := by
  refine ⟨(inn.state.filter fun x => decide (x ∉ s.dedup)).map Action.Remove,
    ((s.dedup).filter fun x => decide (x ∉ inn.state)).map Action.Add, rfl, ?_, ?_⟩
  · intro act hact
    rcases List.mem_map.1 hact with ⟨x, _, rfl⟩
    exact ⟨x, rfl⟩
  · intro act hact
    rcases List.mem_map.1 hact with ⟨x, _, rfl⟩
    exact ⟨x, rfl⟩

/-- C6: two snapshot collections with the same elements (any order, any
duplicate multiplicities) produce, from the same engine state, the same
set of actions — the two batches are permutations of each other. -/
theorem c6_snapshot_order_irrelevant (inn : Inner T) (l1 l2 : List T)
    (h : ∀ x, x ∈ l1 ↔ x ∈ l2) :
    ((inn.update l1).action_queue).Perm ((inn.update l2).action_queue) := by
  have hded : l1.dedup.Perm l2.dedup :=
    (List.perm_ext_iff_of_nodup (List.nodup_dedup l1) (List.nodup_dedup l2)).2
      (fun a => by simp only [List.mem_dedup]; exact h a)
  have hrem : (inn.state.filter fun x => decide (x ∉ l1.dedup)) =
      (inn.state.filter fun x => decide (x ∉ l2.dedup)) := by
    refine List.filter_congr fun x _ => ?_
    simp only [decide_eq_decide, List.mem_dedup]
    exact not_congr (h x)
  have hadd : (l1.dedup.filter fun x => decide (x ∉ inn.state)).Perm
      (l2.dedup.filter fun x => decide (x ∉ inn.state)) := hded.filter _
  simp only [Inner.update]
  rw [hrem]
  exact List.Perm.append (List.Perm.refl _) (hadd.map _)

/-- C6 witness: snapshots `[1, 2]` and `[2, 1, 1]` over `Fin 3`. -/
theorem c6_witness :
    (∀ x : Fin 3, x ∈ ([1, 2] : List (Fin 3)) ↔ x ∈ ([2, 1, 1] : List (Fin 3))) ∧
      (((Inner.mk ([0, 1] : List (Fin 3)) []).update [1, 2]).action_queue).Perm
        (((Inner.mk ([0, 1] : List (Fin 3)) []).update [2, 1, 1]).action_queue) :=
  ⟨by decide, c6_snapshot_order_irrelevant _ _ _ (by decide)⟩

/-- Replaying a block of `Remove` actions deletes exactly those elements. -/
theorem mem_replay_removes (l : List T) : ∀ (r : List T) (x : T),
    x ∈ replay r (l.map Action.Remove) ↔ x ∈ r ∧ x ∉ l := by
  induction l with
  | nil => simp [replay]
  | cons a rest ih =>
    intro r x
    simp only [List.map_cons, replay, List.foldl_cons, applyAction]
    have := ih (r.filter fun y => decide (y ≠ a)) x
    simp only [replay] at this
    rw [this, List.mem_filter]
    simp only [decide_eq_true_iff, List.mem_cons]
    tauto

/-- Replaying a block of `Add` actions inserts exactly those elements. -/
theorem mem_replay_adds (l : List T) : ∀ (r : List T) (x : T),
    x ∈ replay r (l.map Action.Add) ↔ x ∈ r ∨ x ∈ l := by
  induction l with
  | nil => simp [replay]
  | cons a rest ih =>
    intro r x
    simp only [List.map_cons, replay, List.foldl_cons, applyAction]
    by_cases ha : a ∈ r
    · have := ih r x
      simp only [replay] at this
      rw [if_pos ha, this]
      simp only [List.mem_cons]
      constructor
      · rintro (hx | hx)
        · exact Or.inl hx
        · exact Or.inr (Or.inr hx)
      · rintro (hx | rfl | hx)
        · exact Or.inl hx
        · exact Or.inl ha
        · exact Or.inr hx
    · have := ih (a :: r) x
      simp only [replay] at this
      rw [if_neg ha, this]
      simp only [List.mem_cons]
      tauto

/-- Replaying one `update` batch onto any set equal in membership to the
engine's previous state yields the deduplicated new snapshot. -/
theorem mem_replay_update (inn : Inner T) (s : List T) (r : List T)
    (hr : ∀ x, x ∈ r ↔ x ∈ inn.state) (x : T) :
    x ∈ replay r (inn.update s).action_queue ↔ x ∈ s := by
  simp only [Inner.update, replay, List.foldl_append]
  have hrem := mem_replay_removes (inn.state.filter fun y => decide (y ∉ s.dedup)) r x
  have hadd := mem_replay_adds (s.dedup.filter fun y => decide (y ∉ inn.state))
    (replay r ((inn.state.filter fun y => decide (y ∉ s.dedup)).map Action.Remove)) x
  simp only [replay] at hrem hadd
  rw [hadd, hrem, hr x]
  simp only [List.mem_filter, decide_eq_true_iff, List.mem_dedup]
  tauto

/-- C1: for any snapshot sequence, after draining every batch produced
through snapshot `k`, replaying all those Add/Remove actions in
delivery order from an empty set reconstructs exactly `dedup(S k)`. -/
theorem c1_replay_reconstructs (ss : List (List T)) (k : Nat) (hk : k < ss.length)
    (x : T) :
    x ∈ replayBatches [] ((runBatches Inner.new ss).take (k + 1)) ↔
      x ∈ (ss.get ⟨k, hk⟩).dedup := by
  suffices h : ∀ (ss : List (List T)) (inn : Inner T) (r : List T),
      (∀ y, y ∈ r ↔ y ∈ inn.state) → ∀ (k : Nat) (hk : k < ss.length) (x : T),
      (x ∈ replayBatches r ((runBatches inn ss).take (k + 1)) ↔
        x ∈ (ss.get ⟨k, hk⟩).dedup) by
    exact h ss Inner.new [] (by simp [Inner.new]) k hk x
  intro ss
  induction ss with
  | nil => intro inn r hr k hk; exact absurd hk (by simp)
  | cons s rest ih =>
    intro inn r hr k hk x
    have hbatch : ∀ y, y ∈ replay r (inn.update s).action_queue ↔
        y ∈ (inn.update s).state := by
      intro y
      rw [mem_replay_update inn s r hr y]
      simp [Inner.update, List.mem_dedup]
    cases k with
    | zero =>
      simp only [runBatches, List.take_succ_cons, List.take_zero, replayBatches,
        List.foldl_cons, List.foldl_nil, List.get]
      rw [hbatch x]
      simp [Inner.update, List.mem_dedup]
    | succ k =>
      simp only [runBatches, List.take_succ_cons, replayBatches, List.foldl_cons,
        List.get]
      exact ih (inn.update s) (replay r (inn.update s).action_queue) hbatch k
        (Nat.lt_of_succ_lt_succ hk) x

/-- C1 witness: snapshots `[[1, 2], [2, 3]]`, prefix `k = 1`, element `3`. -/
theorem c1_witness :
    (1 < ([[1, 2], [2, 3]] : List (List Nat)).length) ∧
      ((3 : Nat) ∈ replayBatches []
          ((runBatches Inner.new ([[1, 2], [2, 3]] : List (List Nat))).take 2) ↔
        (3 : Nat) ∈ (([[1, 2], [2, 3]] : List (List Nat)).get ⟨1, by decide⟩).dedup) :=
  ⟨by decide, c1_replay_reconstructs [[1, 2], [2, 3]] 1 (by decide) 3⟩

/-- When the queue is empty, one `poll_next` step with an empty queue
reduces to a single upstream poll. -/
theorem poll_next_empty_queue (up : Nat → UpResp T) (fuel : Nat) (s : StreamDiff T)
    (hq : s.inner.action_queue = []) :
    poll_next up (fuel + 1) s =
      match up s.idx with
      | .finished => some (.finished, ⟨s.idx + 1, s.inner⟩)
      | .pend => some (.pend, ⟨s.idx + 1, s.inner⟩)
      | .item snap => poll_next up fuel ⟨s.idx + 1, s.inner.update snap⟩ := by
  obtain ⟨idx, st, q⟩ := s
  simp only at hq
  subst hq
  simp only [poll_next, Inner.next_from_queue]

/-- When the queue is non-empty, `poll_next` serves its head without
polling upstream. -/
theorem poll_next_serves_queue (up : Nat → UpResp T) (fuel : Nat) (t : StreamDiff T)
    (a : Action T) (q : List (Action T)) (hq : t.inner.action_queue = a :: q) :
    poll_next up (fuel + 1) t =
      some (.action a, ⟨t.idx, ⟨t.inner.state, q⟩⟩) := by
  obtain ⟨idx, st, q0⟩ := t
  simp only at hq
  subst hq
  simp only [poll_next, Inner.next_from_queue]

/-- C3: once the upstream is permanently finished (from poll index `i0`
on), any pull with an empty queue reports finished and leads to a state
that again has an empty queue and a poll index past `i0` — the Ended
state is terminal and every subsequent pull also reports finished. -/
theorem c3_ended_is_terminal (up : Nat → UpResp T) (i0 : Nat)
    (hup : ∀ j, i0 ≤ j → up j = UpResp.finished)
    (s : StreamDiff T) (hq : s.inner.action_queue = []) (hi : i0 ≤ s.idx)
    (fuel : Nat) :
    poll_next up (fuel + 1) s = some (PollStep.finished, StreamDiff.mk (s.idx + 1) s.inner) ∧
      (StreamDiff.mk (s.idx + 1) s.inner).inner.action_queue = [] ∧
      i0 ≤ (StreamDiff.mk (s.idx + 1) s.inner).idx := by
  refine ⟨?_, hq, Nat.le_succ_of_le hi⟩
  rw [poll_next_empty_queue up fuel s hq, hup s.idx hi]

/-- C3 witness: the always-finished upstream, from the fresh adapter. -/
theorem c3_witness :
    ((∀ j, 0 ≤ j → (fun _ => UpResp.finished : Nat → UpResp Nat) j = UpResp.finished) ∧
        (StreamDiff.new : StreamDiff Nat).inner.action_queue = [] ∧
        0 ≤ (StreamDiff.new : StreamDiff Nat).idx) ∧
      (poll_next (fun _ => UpResp.finished) 1 (StreamDiff.new : StreamDiff Nat) =
          some (PollStep.finished,
            StreamDiff.mk ((StreamDiff.new : StreamDiff Nat).idx + 1)
              (StreamDiff.new : StreamDiff Nat).inner) ∧
        (StreamDiff.mk ((StreamDiff.new : StreamDiff Nat).idx + 1)
            (StreamDiff.new : StreamDiff Nat).inner).inner.action_queue = [] ∧
        0 ≤ (StreamDiff.mk ((StreamDiff.new : StreamDiff Nat).idx + 1)
            (StreamDiff.new : StreamDiff Nat).inner).idx) :=
  ⟨⟨fun _ _ => rfl, rfl, Nat.zero_le _⟩,
    c3_ended_is_terminal (fun _ => UpResp.finished) 0 (fun _ _ => rfl)
      StreamDiff.new rfl (Nat.zero_le _) 0⟩

/-- C4: when the upstream finishes while the engine state is possibly
non-empty, the adapter reports finished without synthesizing any
trailing Remove actions: the engine (state and queue) is untouched and
the queue stays empty. -/
theorem c4_no_trailing_removes (up : Nat → UpResp T) (s : StreamDiff T)
    (hq : s.inner.action_queue = []) (hfin : up s.idx = UpResp.finished)
    (fuel : Nat) :
    poll_next up (fuel + 1) s = some (PollStep.finished, StreamDiff.mk (s.idx + 1) s.inner) ∧
      (StreamDiff.mk (s.idx + 1) s.inner).inner.state = s.inner.state ∧
      (StreamDiff.mk (s.idx + 1) s.inner).inner.action_queue = [] := by
  refine ⟨?_, rfl, hq⟩
  rw [poll_next_empty_queue up fuel s hq, hfin]

/-- C4 witness: the upstream finishes while the engine still holds
`{1, 2}`; no Remove is produced. -/
theorem c4_witness :
    ((StreamDiff.mk 0 (Inner.mk ([1, 2] : List Nat) [])).inner.action_queue = [] ∧
        (fun _ => UpResp.finished : Nat → UpResp Nat)
          (StreamDiff.mk 0 (Inner.mk ([1, 2] : List Nat) [])).idx = UpResp.finished) ∧
      (poll_next (fun _ => UpResp.finished) 1
          (StreamDiff.mk 0 (Inner.mk ([1, 2] : List Nat) [])) =
        some (PollStep.finished,
          StreamDiff.mk ((StreamDiff.mk 0 (Inner.mk ([1, 2] : List Nat) [])).idx + 1)
            (StreamDiff.mk 0 (Inner.mk ([1, 2] : List Nat) [])).inner) ∧
        (StreamDiff.mk ((StreamDiff.mk 0 (Inner.mk ([1, 2] : List Nat) [])).idx + 1)
            (StreamDiff.mk 0 (Inner.mk ([1, 2] : List Nat) [])).inner).inner.state =
          (StreamDiff.mk 0 (Inner.mk ([1, 2] : List Nat) [])).inner.state ∧
        (StreamDiff.mk ((StreamDiff.mk 0 (Inner.mk ([1, 2] : List Nat) [])).idx + 1)
            (StreamDiff.mk 0 (Inner.mk ([1, 2] : List Nat) [])).inner).inner.action_queue
          = []) :=
  ⟨⟨rfl, rfl⟩,
    c4_no_trailing_removes (fun _ => UpResp.finished)
      (StreamDiff.mk 0 (Inner.mk ([1, 2] : List Nat) [])) rfl rfl 0⟩

/-- C7: with the queue empty and the upstream pending (from poll index
`i0` on), a pull reports pending, does no further work (the engine is
unchanged), and the invariant persists so every later pull also reports
pending; and whenever the queue is non-empty, the pull serves the
queued action head without touching the upstream at all. -/
theorem c7_pending_delegates (up : Nat → UpResp T) (i0 : Nat)
    (hup : ∀ j, i0 ≤ j → up j = UpResp.pend)
    (s : StreamDiff T) (hq : s.inner.action_queue = []) (hi : i0 ≤ s.idx)
    (fuel : Nat) :
    (poll_next up (fuel + 1) s = some (PollStep.pend, StreamDiff.mk (s.idx + 1) s.inner) ∧
        (StreamDiff.mk (s.idx + 1) s.inner).inner = s.inner ∧
        (StreamDiff.mk (s.idx + 1) s.inner).inner.action_queue = [] ∧
        i0 ≤ (StreamDiff.mk (s.idx + 1) s.inner).idx) ∧
      ∀ (t : StreamDiff T) (a : Action T) (q : List (Action T)),
        t.inner.action_queue = a :: q →
        poll_next up (fuel + 1) t =
          some (PollStep.action a, StreamDiff.mk t.idx (Inner.mk t.inner.state q)) := by
  refine ⟨⟨?_, rfl, hq, Nat.le_succ_of_le hi⟩, ?_⟩
  · rw [poll_next_empty_queue up fuel s hq, hup s.idx hi]
  · intro t a q hqt
    exact poll_next_serves_queue up fuel t a q hqt

/-- C7 witness: the never-ready upstream, from the fresh adapter. -/
theorem c7_witness :
    ((∀ j, 0 ≤ j → (fun _ => UpResp.pend : Nat → UpResp Nat) j = UpResp.pend) ∧
        (StreamDiff.new : StreamDiff Nat).inner.action_queue = [] ∧
        0 ≤ (StreamDiff.new : StreamDiff Nat).idx) ∧
      ((poll_next (fun _ => UpResp.pend) 1 (StreamDiff.new : StreamDiff Nat) =
          some (PollStep.pend,
            StreamDiff.mk ((StreamDiff.new : StreamDiff Nat).idx + 1)
              (StreamDiff.new : StreamDiff Nat).inner) ∧
        (StreamDiff.mk ((StreamDiff.new : StreamDiff Nat).idx + 1)
            (StreamDiff.new : StreamDiff Nat).inner).inner =
          (StreamDiff.new : StreamDiff Nat).inner ∧
        (StreamDiff.mk ((StreamDiff.new : StreamDiff Nat).idx + 1)
            (StreamDiff.new : StreamDiff Nat).inner).inner.action_queue = [] ∧
        0 ≤ (StreamDiff.mk ((StreamDiff.new : StreamDiff Nat).idx + 1)
            (StreamDiff.new : StreamDiff Nat).inner).idx) ∧
      ∀ (t : StreamDiff Nat) (a : Action Nat) (q : List (Action Nat)),
        t.inner.action_queue = a :: q →
        poll_next (fun _ => UpResp.pend) 1 t =
          some (PollStep.action a, StreamDiff.mk t.idx (Inner.mk t.inner.state q))) :=
  ⟨⟨fun _ _ => rfl, rfl, Nat.zero_le _⟩,
    c7_pending_delegates (fun _ => UpResp.pend) 0 (fun _ _ => rfl)
      StreamDiff.new rfl (Nat.zero_le _) 0⟩

end StreamEventify
